import Mathlib

set_option maxHeartbeats 1000000

/-
Formal model of the pdf-filler repository (src/utils_pdf.py, src/app.py).

The Python functions are shallowly embedded as Lean definitions over an
explicit data model of pdfrw field trees.  PDF name objects (PdfName) are
modelled as strings carrying their leading slash, e.g. "/Off", "/Yes",
"/Btn".  Dictionaries whose only relevant content is their key list
(the /AP /N normal-appearance dictionaries) are modelled as ordered key
lists, with the empty list standing for an absent or empty dictionary
(Python truthiness collapses both cases in the source).  Python str.strip
and str.lower are modelled over the ASCII character classes used by the
source strings.
-/

/-- Whitespace class of Python str.strip and of the regex class backslash-s
(ASCII part). -/
def isPyWs (c : Char) : Bool :=
  c == ' ' || c == '\t' || c == '\n' || c == '\r' || c == '\x0b' || c == '\x0c'

/-- Digit class of the regex class backslash-d (ASCII part). -/
def isPyDigit (c : Char) : Bool :=
  '0' ≤ c && c ≤ '9'

/-- Word-character class of the regex class backslash-w (ASCII part),
used for the word boundary after the Tf operator. -/
def isPyWord (c : Char) : Bool :=
  isPyDigit c || ('a' ≤ c && c ≤ 'z') || ('A' ≤ c && c ≤ 'Z') || c == '_'

/-- Python str.strip on a character list: remove leading and trailing
whitespace. -/
def pyStripList (s : List Char) : List Char :=
  ((s.dropWhile isPyWs).reverse.dropWhile isPyWs).reverse

/-- Python expression str(x).strip().lower(), the normalisation applied by
should_check to the value and to every rule token. -/
def pyNorm (s : String) : String :=
  String.mk ((pyStripList s.data).map Char.toLower)

/-- A checkbox rule: src/app.py always stores the three keys
checked_values, unchecked_values and default, and the engine default
(utils_pdf.py line 307) also carries all three. -/
structure Rule where
  checked_values : List String
  unchecked_values : List String
  default : String
deriving DecidableEq, Repr

/-- The default rule constant of the fill engine,
utils_pdf.py lines 307-311. -/
def defaultRule : Rule :=
  { checked_values := ["yes", "true", "1", "x", "on", "checked", "male"]
  , unchecked_values := ["no", "false", "0", "off", "unchecked", "", "female"]
  , default := "off" }

/-- utils_pdf.should_check (lines 162-172): normalise the value and both
token lists, test checked membership first, then unchecked, then compare
the default polarity with "on". -/
def should_check (value : String) (rule : Rule) : Bool :=
  let v := pyNorm value
  let checked_values := rule.checked_values.map pyNorm
  let unchecked_values := rule.unchecked_values.map pyNorm
  let dflt := pyNorm rule.default
  if v ∈ checked_values then true
  else if v ∈ unchecked_values then false
  else decide (dflt = "on")

/-- utils_pdf.clean_field_name (lines 106-113): strip, remove one layer of
literal parentheses, strip again, map empty to None. -/
def clean_field_name (tval : Option String) : Option String :=
  match tval with
  | none => none
  | some t =>
    let name := pyStripList t.data
    let name :=
      if name.head? = some '(' ∧ name.getLast? = some ')' then (name.drop 1).dropLast
      else name
    let name := pyStripList name
    if name = [] then none else some (String.mk name)

/-- Attributes of one field node of the AcroForm tree.  T is the raw name
entry, FT the field type name (some "/Btn" for buttons), apN the key list
of the normal-appearance dictionary AP/N (empty when AP or N is absent or
empty), V the logical value, AS the appearance state, DA the default
appearance string, AP a flag recording whether a cached appearance stream
reference is present, Ff the field flags. -/
structure FAttrs where
  T : Option String
  FT : Option String
  apN : List String
  V : Option String
  AS : Option String
  DA : Option String
  AP : Bool
  Ff : Option Int
deriving DecidableEq, Repr

/-- A field node: attributes plus child widgets (Kids).  The empty kid
list stands for an absent or empty Kids entry, which the source treats
identically via truthiness. -/
inductive PdfField where
  | mk (a : FAttrs) (kids : List PdfField)

/-- Attributes of a field node. -/
def PdfField.attrs : PdfField → FAttrs
  | .mk a _ => a

/-- Kids of a field node. -/
def PdfField.kids : PdfField → List PdfField
  | .mk _ k => k

/-- The per-kid mutation kid.AS = token of the button branch of the fill
loop (utils_pdf.py line 326). -/
def PdfField.setAS (tok : String) : PdfField → PdfField
  | .mk a k => .mk { a with AS := some tok } k

/-- Concatenation of a list of lists (used where the source iterates all
kid appearance keys in order). -/
def flatJoin {α : Type} : List (List α) → List α
  | [] => []
  | l :: ls => l ++ flatJoin ls

/-- utils_pdf.get_checkbox_on_value (lines 126-159): first non-"/Off" key
of the field node normal-appearance dictionary; otherwise the first
non-"/Off" key over the kid widgets in order; otherwise the fallback name
"/Yes".  Keys are returned exactly as stored. -/
def get_checkbox_on_value (f : PdfField) : String :=
  match f.attrs.apN.find? (fun k => k != "/Off") with
  | some k => k
  | none =>
    match (flatJoin (f.kids.map (fun kd => kd.attrs.apN))).find? (fun k => k != "/Off") with
    | some k => k
    | none => "/Yes"

/-- A page annotation as scanned by the page loops: its Subtype entry,
name entry and field type entry. -/
structure Annot where
  subtype : Option String
  T : Option String
  FT : Option String
deriving DecidableEq, Repr

/-- The AcroForm root: whether a non-null XFA entry is present, and the
Fields array (empty list for an absent or empty array, which the source
collapses via truthiness). -/
structure AcroFormT where
  xfa : Bool
  fields : List PdfField

/-- A parsed template: optional AcroForm root, the page list (each page
is its annotation list), and the NeedAppearances flag. -/
structure PdfTemplate where
  acroForm : Option AcroFormT
  pages : List (List Annot)
  needAppearances : Bool

/-- utils_pdf.is_xfa_pdf (lines 80-87): true when the AcroForm root exists
and carries a non-null XFA entry. -/
def is_xfa_pdf (t : PdfTemplate) : Bool :=
  match t.acroForm with
  | some acro => acro.xfa
  | none => false

mutual
/-- utils_pdf.iter_fields (lines 90-103) on one node: yield the node, then
recursively its kids. -/
def iterOne : PdfField → List PdfField
  | .mk a kids => .mk a kids :: iterList kids

/-- utils_pdf.iter_fields on a field list: each node followed by its
descendants, depth first, parents before kids. -/
def iterList : List PdfField → List PdfField
  | [] => []
  | f :: fs => iterOne f ++ iterList fs
end

/-- Association-list lookup modelling Python dict lookup (dict keys are
unique in the modelled dicts, so first-match lookup coincides). -/
def alookup {β : Type} (k : String) : List (String × β) → Option β
  | [] => none
  | (k', v) :: rest => if k' = k then some v else alookup k rest

/-- Association-list update of an existing key, modelling Python dict
assignment merged[nm] = tp. -/
def assocUpdate {β : Type} (k : String) (v : β) : List (String × β) → List (String × β)
  | [] => []
  | (k', v') :: rest => if k' = k then (k', v) :: rest else (k', v') :: assocUpdate k v rest

/-- One iteration of the merge loop of utils_pdf.extract_pdf_fields_all
(lines 217-223): first occurrence of a name records order and type, a
later occurrence upgrades a non-checkbox entry when it is itself
checkbox_or_radio. -/
def mergeStep (st : List String × List (String × String)) (p : String × String) :
    List String × List (String × String) :=
  match alookup p.1 st.2 with
  | none => (st.1 ++ [p.1], st.2 ++ [(p.1, p.2)])
  | some cur =>
    if cur ≠ "checkbox_or_radio" ∧ p.2 = "checkbox_or_radio" then (st.1, assocUpdate p.1 p.2 st.2)
    else st

/-- The merge loop of utils_pdf.extract_pdf_fields_all (lines 215-225),
returning the ordered name list and the name to type map. -/
def mergeFields (occ : List (String × String)) : List String × List (String × String) :=
  occ.foldl mergeStep ([], [])

/-- The harvesting part of utils_pdf.extract_pdf_fields_all
(lines 186-213): every node of the AcroForm tree with a resolvable name,
then every widget-subtype page annotation with a resolvable name, each
classified checkbox_or_radio exactly when its FT entry is the button
name. -/
def harvestOccurrences (tfields : List PdfField) (pages : List (List Annot)) :
    List (String × String) :=
  (iterList tfields).filterMap (fun f =>
    (clean_field_name f.attrs.T).map (fun nm =>
      (nm, if f.attrs.FT = some "/Btn" then "checkbox_or_radio" else "text"))) ++
  (flatJoin pages).filterMap (fun an =>
    if an.subtype = some "/Widget" then
      (clean_field_name an.T).map (fun nm =>
        (nm, if an.FT = some "/Btn" then "checkbox_or_radio" else "text"))
    else none)

/-- utils_pdf.extract_pdf_fields_all (lines 178-225): fatal checks then
harvest and merge. -/
def extract_pdf_fields_all (t : PdfTemplate) :
    Except String (List String × List (String × String)) :=
  match t.acroForm with
  | none => .error "PDF has no AcroForm fields (not standard fillable)."
  | some acro =>
    if is_xfa_pdf t then .error "This PDF is XFA. Convert to AcroForm first."
    else .ok (mergeFields (harvestOccurrences acro.fields t.pages))

/-- Comparison definition following the spec wording for the ordered name
list: the first occurrence of each name fixes its position. -/
def orderSpec (names : List String) : List String :=
  names.foldl (fun o n => if n ∈ o then o else o ++ [n]) []

/-- One data row: the column labels with their string values (pandas rows
are loaded with dtype str and fillna, so every cell is a string). -/
structure DataRow where
  cols : List (String × String)
deriving DecidableEq, Repr

/-- Membership test excel_col in data_row.index. -/
def DataRow.hasCol (r : DataRow) (c : String) : Bool :=
  (alookup c r.cols).isSome

/-- str(data_row.get(excel_col, "")), reached only when the column is
present. -/
def DataRow.get (r : DataRow) (c : String) : String :=
  (alookup c r.cols).getD ""

/-- Word boundary of the regex after the token Tf: satisfied at end of
input or before a non word character. -/
def boundaryOk : List Char → Bool
  | [] => true
  | c :: _ => !isPyWord c

/-- The optional fractional part of the regex group, the parenthesised
non-capturing group of a dot followed by digits, with nothing consumed
when it does not apply: returns the consumed length and the rest. -/
def matchFrac : List Char → Nat × List Char
  | [] => (0, [])
  | c :: r =>
    if c = '.' then
      if r.takeWhile isPyDigit = [] then (0, c :: r)
      else (1 + (r.takeWhile isPyDigit).length, r.dropWhile isPyDigit)
    else (0, c :: r)

/-- The number group of the regex of _set_da_autosize: an optional minus
sign, one or more digits, and the optional fractional part.  Greedy
matching with committed maximal munch coincides with the backtracking
regex here because a digit run can only be followed by a non-digit, so
shorter alternatives always fail. -/
def matchNum : List Char → Option (Nat × List Char)
  | [] => none
  | c :: r0 =>
    if c = '-' then
      if r0.takeWhile isPyDigit = [] then none
      else some (1 + (r0.takeWhile isPyDigit).length + (matchFrac (r0.dropWhile isPyDigit)).1,
                 (matchFrac (r0.dropWhile isPyDigit)).2)
    else
      if (c :: r0).takeWhile isPyDigit = [] then none
      else some (((c :: r0).takeWhile isPyDigit).length + (matchFrac ((c :: r0).dropWhile isPyDigit)).1,
                 (matchFrac ((c :: r0).dropWhile isPyDigit)).2)

/-- Attempt of the full pattern of _set_da_autosize at the start of the
given suffix: one whitespace character (the capturing group), the number
group, one or more whitespace characters, the two characters T and f, and
a word boundary.  Returns the total matched length. -/
def matchTfAt : List Char → Option Nat
  | [] => none
  | w :: rest =>
    if isPyWs w then
      match matchNum rest with
      | none => none
      | some (nl, r2) =>
        if r2.takeWhile isPyWs = [] then none
        else
          match r2.dropWhile isPyWs with
          | c1 :: c2 :: post =>
            if c1 = 'T' ∧ c2 = 'f' ∧ boundaryOk post = true
            then some (1 + nl + (r2.takeWhile isPyWs).length + 2)
            else none
          | _ => none
    else none

/-- Leftmost match search of re.sub: try the pattern at each start
position from the left, returning the start index and matched length of
the first success. -/
def findTf : List Char → Option (Nat × Nat)
  | [] => none
  | c :: rest =>
    match matchTfAt (c :: rest) with
    | some L => some (0, L)
    | none =>
      match findTf rest with
      | some (i, L) => some (i + 1, L)
      | none => none

/-- re.sub with count 1 and replacement group-1 followed by 0 Tf: splice
the replacement over the matched span, keeping the captured whitespace
character; identity when there is no match. -/
def reSubTfOnce (s : List Char) : List Char :=
  match findTf s with
  | none => s
  | some (i, L) => s.take (i + 1) ++ ['0', ' ', 'T', 'f'] ++ s.drop (i + L)

/-- utils_pdf._set_da_autosize (lines 29-44) acting on the DA attribute:
return unchanged when DA is absent or falsy (empty); otherwise apply the
single regex substitution.  The source writes the result back only when
it differs, which yields the same final attribute value; the encode step
is modelled as succeeding. -/
def set_da_autosize (da : Option String) : Option String :=
  match da with
  | none => none
  | some d => if d = "" then some d else some (String.mk (reSubTfOnce d.data))

/-- Declarative description of a number literal of the regex group: an
optional minus sign, a nonempty digit run, and an optional dot followed
by a nonempty digit run. -/
def IsNumLit (num : List Char) : Prop :=
  ∃ sign ds fr, num = sign ++ ds ++ fr ∧ (sign = [] ∨ sign = ['-']) ∧
    ds ≠ [] ∧ (∀ c ∈ ds, isPyDigit c = true) ∧
    (fr = [] ∨ ∃ fd, fr = '.' :: fd ∧ fd ≠ [] ∧ (∀ c ∈ fd, isPyDigit c = true))

/-- Declarative description of a font-size-then-Tf token pair at the head
of a suffix, as matched by the regex of _set_da_autosize: a whitespace
character, a number literal, nonempty whitespace, the token Tf, then a
word boundary; L is the length of the whole match. -/
def DeclTfSuffix (t : List Char) (L : Nat) : Prop :=
  ∃ w num ws post, t = w :: (num ++ ws ++ 'T' :: 'f' :: post) ∧
    isPyWs w = true ∧ IsNumLit num ∧
    ws ≠ [] ∧ (∀ c ∈ ws, isPyWs c = true) ∧
    (∀ c ∈ post.take 1, isPyWord c = false) ∧
    L = num.length + ws.length + 3

/-- The body of the per-field loop of utils_pdf.fill_pdf_with_pdfrw
(lines 293-357) for one visited node, given its attributes and kids:
resolve and validate the name and mapped column (skipping otherwise),
then either the button branch (set V to the on token or "/Off", write the
same appearance state to every kid when kids exist, else to the node) or
the text branch (optional DA autosize rewrite, set V, clear the cached
appearance reference, clear the flags).  Returns the new attributes, the
new kids, and the filled-count increment. -/
def fillFieldStep (forceAuto : Bool) (mapping : List (String × String))
    (rules : List (String × Rule)) (row : DataRow) (a : FAttrs) (kids : List PdfField) :
    FAttrs × List PdfField × Nat :=
  match clean_field_name a.T with
  | none => (a, kids, 0)
  | some nm =>
    match alookup nm mapping with
    | none => (a, kids, 0)
    | some excel_col =>
      if excel_col = "" ∨ row.hasCol excel_col = false then (a, kids, 0)
      else
        let value := row.get excel_col
        if a.FT = some "/Btn" then
          let rule := (alookup nm rules).getD defaultRule
          let tok := if should_check value rule then get_checkbox_on_value (.mk a kids) else "/Off"
          if kids.isEmpty then ({ a with V := some tok, AS := some tok }, kids, 1)
          else ({ a with V := some tok }, kids.map (PdfField.setAS tok), 1)
        else
          ({ a with DA := if forceAuto then set_da_autosize a.DA else a.DA
                  , V := some value, AP := false, Ff := none }, kids, 1)

mutual
/-- Structural size of a field node, counting nodes only (attribute
content is ignored); used for the termination argument of the fill
recursion, whose recursive argument may have rewritten attributes. -/
def fsize : PdfField → Nat
  | .mk _ kids => 1 + lsize kids

/-- Structural size of a field list. -/
def lsize : List PdfField → Nat
  | [] => 0
  | f :: fs => 1 + fsize f + lsize fs
end

/-- Setting an appearance state does not change the node-count size. -/
theorem fsize_setAS (tok : String) (f : PdfField) : fsize (PdfField.setAS tok f) = fsize f := by
  cases f with
  | mk a kids => simp [PdfField.setAS, fsize]

/-- Mapping setAS over a list does not change the node-count size. -/
theorem lsize_map_setAS (tok : String) (l : List PdfField) :
    lsize (l.map (PdfField.setAS tok)) = lsize l := by
  induction l with
  | nil => rfl
  | cons f fs ih => simp [lsize, fsize_setAS, ih]

/-- The loop body never changes the node-count size of the kid list. -/
theorem lsize_fillFieldStep (forceAuto : Bool) (mapping : List (String × String))
    (rules : List (String × Rule)) (row : DataRow) (a : FAttrs) (kids : List PdfField) :
    lsize (fillFieldStep forceAuto mapping rules row a kids).2.1 = lsize kids := by
  unfold fillFieldStep
  repeat' split
  all_goals simp [lsize_map_setAS]

mutual
/-- The per-field loop of utils_pdf.fill_pdf_with_pdfrw over the tree
rooted at one node: the generator yields the node before its kids, so the
loop body runs on the node first (possibly writing appearance states onto
the kids) and the kids, as updated, are then visited themselves. -/
def fillField (forceAuto : Bool) (mapping : List (String × String))
    (rules : List (String × Rule)) (row : DataRow) : PdfField → PdfField × Nat
  | .mk a kids =>
    let s := fillFieldStep forceAuto mapping rules row a kids
    let rest := fillList forceAuto mapping rules row s.2.1
    (.mk s.1 rest.1, s.2.2 + rest.2)
  termination_by f => fsize f
  decreasing_by
    simp only [fsize]
    rw [lsize_fillFieldStep]
    omega

/-- The per-field loop over a field list. -/
def fillList (forceAuto : Bool) (mapping : List (String × String))
    (rules : List (String × Rule)) (row : DataRow) : List PdfField → List PdfField × Nat
  | [] => ([], 0)
  | f :: fs =>
    let r1 := fillField forceAuto mapping rules row f
    let r2 := fillList forceAuto mapping rules row fs
    (r1.1 :: r2.1, r1.2 + r2.2)
  termination_by l => lsize l
  decreasing_by
    · simp only [lsize]; omega
    · simp only [lsize]; omega
end

/-- utils_pdf.fill_pdf_with_pdfrw (lines 267-360): fatal checks for a
missing AcroForm root, for XFA, and for an absent or empty Fields array,
then the per-field loop, the NeedAppearances update, and the write of the
output document.  The output document and the filled count are returned
only on success; every error path raises before the write, so no output
is produced there.  The debug flag and the output path are not modelled;
file writing is represented by returning the written document. -/
def fill_pdf_with_pdfrw (t : PdfTemplate) (row : DataRow)
    (mapping : List (String × String)) (rules : List (String × Rule))
    (forceAuto : Bool) : Except String (PdfTemplate × Nat) :=
  match t.acroForm with
  | none => .error "No AcroForm found in PDF."
  | some acro =>
    if is_xfa_pdf t then .error "This PDF is XFA. Convert to AcroForm first."
    else if acro.fields.isEmpty then .error "AcroForm exists, but no fields found in AcroForm.Fields"
    else
      let res := fillList forceAuto mapping rules row acro.fields
      .ok ({ acroForm := some { xfa := acro.xfa, fields := res.1 }
           , pages := t.pages, needAppearances := true }, res.2)

/-- One entry of the per-row report of the batch loop in src/app.py
(lines 505-534).  The output filename bookkeeping is not modelled; the
claimed properties concern the count and status fields only. -/
structure ReportRow where
  row : Nat
  status : String
  filled_fields : Nat
  error : String
deriving DecidableEq, Repr

/-- The body of the batch loop of src/app.py for row index i: call the
fill engine; on success status OK when the count is positive and
ZERO_FILLED otherwise; on an exception status ERROR with count zero and
the message recorded. -/
def mkReportRow (t : PdfTemplate) (mapping : List (String × String))
    (rules : List (String × Rule)) (i : Nat) (dr : DataRow) : ReportRow :=
  match fill_pdf_with_pdfrw t dr mapping rules true with
  | .ok out =>
    { row := i + 1, status := if 0 < out.2 then "OK" else "ZERO_FILLED"
    , filled_fields := out.2, error := "" }
  | .error e => { row := i + 1, status := "ERROR", filled_fields := 0, error := e }

/-- The batch loop of src/app.py from a given starting index. -/
def generateReports (t : PdfTemplate) (mapping : List (String × String))
    (rules : List (String × Rule)) : Nat → List DataRow → List ReportRow
  | _, [] => []
  | i, dr :: rest => mkReportRow t mapping rules i dr :: generateReports t mapping rules (i + 1) rest

/-- The batch loop of the Generate ZIP handler of src/app.py, over all
rows of the data source starting at index zero. -/
def generate_zip_reports (t : PdfTemplate) (mapping : List (String × String))
    (rules : List (String × Rule)) (rows : List DataRow) : List ReportRow :=
  generateReports t mapping rules 0 rows

/-- The export payload built by src/app.py (lines 153-161). -/
structure ExportPayload where
  pdf_hash : String
  excel_hash : String
  pdf_name : String
  excel_name : String
  mapping : List (String × String)
  rules : List (String × Rule)
  exported_at : String
deriving DecidableEq, Repr

/-- src/app.py export_payload (lines 153-161): package the hashes, the
names, the current mapping and rules, and a timestamp. -/
def export_payload (pdfHash excelHash pdfName excelName : String)
    (mapping : List (String × String)) (rules : List (String × Rule))
    (exportedAt : String) : ExportPayload :=
  { pdf_hash := pdfHash, excel_hash := excelHash, pdf_name := pdfName
  , excel_name := excelName, mapping := mapping, rules := rules
  , exported_at := exportedAt }

/-- Modelled from the spec: the function normalize_imported_schema is
called by the JSON-import handler of src/app.py (line 192) but its
definition is not among the repository sources.  Per the spec (section 6),
the importer must tolerate mapping entries whose column names no longer
exist in the current data source and rule entries referencing fields
absent from the current template: such entries are dropped with a
warning, never a fatal error, and all surviving entries are kept as
exported.  Returns the new mapping, the new rules, and the warnings. -/
def normalize_imported_schema (obj : ExportPayload) (dfColumns : List String)
    (pdfFields : List String) :
    List (String × String) × List (String × Rule) × List String :=
  let keepM := fun (p : String × String) => pdfFields.contains p.1 && dfColumns.contains p.2
  let keepR := fun (p : String × Rule) => pdfFields.contains p.1
  ( obj.mapping.filter keepM
  , obj.rules.filter keepR
  , (obj.mapping.filter (fun p => !keepM p)).map (fun p => "dropped mapping entry " ++ p.1) ++
    (obj.rules.filter (fun p => !keepR p)).map (fun p => "dropped rule entry " ++ p.1) )

/-
Theorems.  Each claim of the specification has exactly one main theorem
below, preceded by helper lemmas where needed.
-/

/-- Claim C1: checkbox-value classification by should_check is total and
deterministic: under the normalisation of the source, a value in the
checked set classifies checked; otherwise a value in the unchecked set
classifies unchecked; otherwise the default polarity decides; and
re-running on the same pair yields the same result. -/
theorem C1_should_check_total_deterministic (value : String) (rule : Rule) :
    (pyNorm value ∈ rule.checked_values.map pyNorm → should_check value rule = true) ∧
    (pyNorm value ∉ rule.checked_values.map pyNorm →
      pyNorm value ∈ rule.unchecked_values.map pyNorm → should_check value rule = false) ∧
    (pyNorm value ∉ rule.checked_values.map pyNorm →
      pyNorm value ∉ rule.unchecked_values.map pyNorm →
      (should_check value rule = true ↔ pyNorm rule.default = "on")) ∧
    should_check value rule = should_check value rule := by
  refine ⟨?_, ?_, ?_, rfl⟩
  · intro h; simp [should_check, h]
  · intro h1 h2; simp [should_check, h1, h2]
  · intro h1 h2; simp [should_check, h1, h2]

/-- Witness for C1 at a concrete input: "TRUE" normalises into the
default checked set and classifies checked. -/
theorem C1_witness :
    pyNorm "TRUE" ∈ defaultRule.checked_values.map pyNorm ∧
    should_check "TRUE" defaultRule = true :=
  ⟨by decide, (C1_should_check_total_deterministic "TRUE" defaultRule).1 (by decide)⟩

/-- A successful search for a non-Off key yields a key distinct from
"/Off", preceded only by "/Off" keys. -/
theorem find?_neOff_some {l : List String} {k : String}
    (h : l.find? (fun x => x != "/Off") = some k) :
    k ≠ "/Off" ∧ ∃ pre post, l = pre ++ k :: post ∧ ∀ x ∈ pre, x = "/Off" := by
  induction l with
  | nil => simp at h
  | cons a l ih =>
    by_cases ha : (a != "/Off") = true
    · simp only [List.find?, ha] at h
      obtain rfl : a = k := by injection h
      exact ⟨by simpa using ha, [], l, rfl, by simp⟩
    · have ha' : (a != "/Off") = false := by simpa using ha
      simp only [List.find?, ha'] at h
      obtain ⟨hk, pre, post, heq, hpre⟩ := ih h
      refine ⟨hk, a :: pre, post, by rw [heq, List.cons_append], ?_⟩
      intro x hx
      rcases List.mem_cons.mp hx with hx | hx
      · subst hx; simpa using ha
      · exact hpre x hx

/-- If every key before k is "/Off" and k is not, the search finds k. -/
theorem find?_neOff_first {k : String} (pre post : List String)
    (hpre : ∀ x ∈ pre, x = "/Off") (hk : k ≠ "/Off") :
    (pre ++ k :: post).find? (fun x => x != "/Off") = some k := by
  induction pre with
  | nil =>
    have hk' : (k != "/Off") = true := by simpa using hk
    simp only [List.nil_append, List.find?, hk']
  | cons a pre ih =>
    have ha : a = "/Off" := hpre a (by simp)
    have ha' : (a != "/Off") = false := by simp [ha]
    rw [List.cons_append]
    simp only [List.find?, ha']
    exact ih fun x hx => hpre x (by simp [hx])

/-- If every key is "/Off" the search fails. -/
theorem find?_neOff_allOff {l : List String} (h : ∀ x ∈ l, x = "/Off") :
    l.find? (fun x => x != "/Off") = none := by
  rw [List.find?_eq_none]
  intro a ha
  simp [h a ha]

/-- Claim C2: on-token discovery returns, in order of precedence, the
first non-Off key of the field node normal-appearance dictionary, else
the first non-Off key across the kid widgets in order, else the fallback
"/Yes"; the returned key is taken verbatim and is never "/Off". -/
theorem C2_get_checkbox_on_value_spec (f : PdfField) :
    get_checkbox_on_value f ≠ "/Off" ∧
    (∀ k pre post, f.attrs.apN = pre ++ k :: post → (∀ x ∈ pre, x = "/Off") → k ≠ "/Off" →
      get_checkbox_on_value f = k) ∧
    (∀ k pre post, (∀ x ∈ f.attrs.apN, x = "/Off") →
      flatJoin (f.kids.map (fun kd => kd.attrs.apN)) = pre ++ k :: post →
      (∀ x ∈ pre, x = "/Off") → k ≠ "/Off" →
      get_checkbox_on_value f = k) ∧
    ((∀ x ∈ f.attrs.apN, x = "/Off") →
      (∀ x ∈ flatJoin (f.kids.map (fun kd => kd.attrs.apN)), x = "/Off") →
      get_checkbox_on_value f = "/Yes") := by
  refine ⟨?_, ?_, ?_, ?_⟩
  · cases h1 : f.attrs.apN.find? (fun x => x != "/Off") with
    | some k =>
      rw [show get_checkbox_on_value f = k by simp [get_checkbox_on_value, h1]]
      exact (find?_neOff_some h1).1
    | none =>
      cases h2 : (flatJoin (f.kids.map (fun kd => kd.attrs.apN))).find? (fun x => x != "/Off") with
      | some k =>
        rw [show get_checkbox_on_value f = k by simp [get_checkbox_on_value, h1, h2]]
        exact (find?_neOff_some h2).1
      | none =>
        rw [show get_checkbox_on_value f = "/Yes" by simp [get_checkbox_on_value, h1, h2]]
        decide
  · intro k pre post heq hpre hk
    have h1 : f.attrs.apN.find? (fun x => x != "/Off") = some k := by
      rw [heq]; exact find?_neOff_first pre post hpre hk
    simp [get_checkbox_on_value, h1]
  · intro k pre post hall heq hpre hk
    have h1 : f.attrs.apN.find? (fun x => x != "/Off") = none := find?_neOff_allOff hall
    have h2 : (flatJoin (f.kids.map (fun kd => kd.attrs.apN))).find? (fun x => x != "/Off") = some k := by
      rw [heq]; exact find?_neOff_first pre post hpre hk
    simp [get_checkbox_on_value, h1, h2]
  · intro hall1 hall2
    simp [get_checkbox_on_value, find?_neOff_allOff hall1, find?_neOff_allOff hall2]

/-- Example field for the C2 witness: own appearance keys "/Off" then
"/Chk". -/
def fieldC2ex : PdfField :=
  .mk ⟨some "A", some "/Btn", ["/Off", "/Chk"], none, none, none, false, none⟩ []

/-- Witness for C2 at a concrete input: discovery returns the custom key
"/Chk" verbatim, not "/Off". -/
theorem C2_witness :
    get_checkbox_on_value fieldC2ex = "/Chk" ∧ get_checkbox_on_value fieldC2ex ≠ "/Off" :=
  ⟨(C2_get_checkbox_on_value_spec fieldC2ex).2.1 "/Chk" ["/Off"] [] rfl (by decide) (by decide),
   (C2_get_checkbox_on_value_spec fieldC2ex).1⟩

/-- Claim C4: for a mapped button field, the loop body sets the logical
value V to the discovered on token when the value classifies checked and
to "/Off" otherwise, counts the field, and writes the same appearance
state to every kid when kids exist, else onto the field node itself. -/
theorem C4_button_branch (forceAuto : Bool) (mapping : List (String × String))
    (rules : List (String × Rule)) (row : DataRow) (a : FAttrs) (kids : List PdfField)
    (nm excel_col : String)
    (h1 : clean_field_name a.T = some nm) (h2 : alookup nm mapping = some excel_col)
    (h3 : excel_col ≠ "") (h4 : row.hasCol excel_col = true) (h5 : a.FT = some "/Btn") :
    ((fillFieldStep forceAuto mapping rules row a kids).1.V =
      some (if should_check (row.get excel_col) ((alookup nm rules).getD defaultRule)
            then get_checkbox_on_value (.mk a kids) else "/Off")) ∧
    (fillFieldStep forceAuto mapping rules row a kids).2.2 = 1 ∧
    (kids = [] →
      (fillFieldStep forceAuto mapping rules row a kids).1.AS =
        some (if should_check (row.get excel_col) ((alookup nm rules).getD defaultRule)
              then get_checkbox_on_value (.mk a kids) else "/Off")) ∧
    (kids ≠ [] →
      (fillFieldStep forceAuto mapping rules row a kids).2.1 =
        kids.map (PdfField.setAS
          (if should_check (row.get excel_col) ((alookup nm rules).getD defaultRule)
           then get_checkbox_on_value (.mk a kids) else "/Off")) ∧
      (fillFieldStep forceAuto mapping rules row a kids).1.AS = a.AS) := by
  have hcond : ¬(excel_col = "" ∨ row.hasCol excel_col = false) := by simp [h3, h4]
  cases kids with
  | nil =>
    have key : fillFieldStep forceAuto mapping rules row a [] =
        ({ a with
            V := some (if should_check (row.get excel_col) ((alookup nm rules).getD defaultRule)
                       then get_checkbox_on_value (.mk a []) else "/Off")
          , AS := some (if should_check (row.get excel_col) ((alookup nm rules).getD defaultRule)
                        then get_checkbox_on_value (.mk a []) else "/Off") }, [], 1) := by
      simp only [fillFieldStep, h1, h2]
      rw [if_neg hcond, if_pos h5]
      simp
    refine ⟨?_, ?_, ?_, ?_⟩
    · rw [key]
    · rw [key]
    · intro _; rw [key]
    · intro hne; exact absurd rfl hne
  | cons k0 ks =>
    have key : fillFieldStep forceAuto mapping rules row a (k0 :: ks) =
        ({ a with
            V := some (if should_check (row.get excel_col) ((alookup nm rules).getD defaultRule)
                       then get_checkbox_on_value (.mk a (k0 :: ks)) else "/Off") },
         (k0 :: ks).map (PdfField.setAS
            (if should_check (row.get excel_col) ((alookup nm rules).getD defaultRule)
             then get_checkbox_on_value (.mk a (k0 :: ks)) else "/Off")), 1) := by
      simp only [fillFieldStep, h1, h2]
      rw [if_neg hcond, if_pos h5]
      simp
    refine ⟨?_, ?_, ?_, ?_⟩
    · rw [key]
    · rw [key]
    · intro h; exact absurd h (by simp)
    · intro _; rw [key]; exact ⟨rfl, rfl⟩

/-- Concrete button field with one kid for the C4 witness. -/
def fieldC4kid : PdfField :=
  .mk ⟨none, none, ["/Off", "/K1"], none, none, none, false, none⟩ []

/-- Concrete button attributes for the C4 witness. -/
def attrsC4 : FAttrs := ⟨some "Agree", some "/Btn", [], none, none, none, false, none⟩

/-- Witness for C4 at a concrete input: value "true" classifies checked,
the on token "/K1" is discovered on the kid, V is set to it and the kid
receives the same appearance state. -/
theorem C4_witness :
    (fillFieldStep true [("Agree", "Consent")] [] ⟨[("Consent", "true")]⟩ attrsC4
      [fieldC4kid]).1.V = some "/K1" ∧
    (fillFieldStep true [("Agree", "Consent")] [] ⟨[("Consent", "true")]⟩ attrsC4
      [fieldC4kid]).2.1 = [fieldC4kid].map (PdfField.setAS "/K1") := by
  have h := C4_button_branch true [("Agree", "Consent")] [] ⟨[("Consent", "true")]⟩ attrsC4
    [fieldC4kid] "Agree" "Consent" rfl rfl (by decide) rfl rfl
  have htok : (if should_check ((⟨[("Consent", "true")]⟩ : DataRow).get "Consent")
      ((alookup "Agree" ([] : List (String × Rule))).getD defaultRule)
      then get_checkbox_on_value (.mk attrsC4 [fieldC4kid]) else "/Off") = "/K1" := rfl
  refine ⟨?_, ?_⟩
  · rw [h.1, htok]
  · rw [(h.2.2.2 (by simp)).1, htok]

/-- Concrete attributes for the C5 counterexample: a text field named A
mapped to a column absent from the row. -/
def attrsC5 : FAttrs := ⟨some "A", none, [], none, none, none, false, none⟩

/-- Counterexample to C5 as stated: with mapping A to col and a row not
containing col, the loop body leaves the field completely unchanged and
counts nothing; in particular V is not set to the empty string, so the
field is not processed with a blank value. -/
theorem C5_counterexample :
    fillFieldStep true [("A", "col")] [] ⟨[("x", "1")]⟩ attrsC5 [] = (attrsC5, [], 0) ∧
    (fillFieldStep true [("A", "col")] [] ⟨[("x", "1")]⟩ attrsC5 []).1.V ≠ some "" ∧
    (fillFieldStep true [("A", "col")] [] ⟨[("x", "1")]⟩ attrsC5 []).2.2 = 0 := by
  exact ⟨rfl, by decide, rfl⟩

/-- Claim C5 amended: when the mapped column is absent from the row (or
the mapped column is empty), the fill engine never fails but the field is
skipped entirely: nothing is written and the count is not incremented;
and the fill call as a whole still succeeds on any structurally valid
template. -/
theorem C5_amended_missing_column_skips (forceAuto : Bool)
    (mapping : List (String × String)) (rules : List (String × Rule)) (row : DataRow)
    (a : FAttrs) (kids : List PdfField) (nm excel_col : String)
    (h1 : clean_field_name a.T = some nm) (h2 : alookup nm mapping = some excel_col)
    (h3 : excel_col = "" ∨ row.hasCol excel_col = false) :
    fillFieldStep forceAuto mapping rules row a kids = (a, kids, 0) ∧
    (∀ (t : PdfTemplate) (acro : AcroFormT), t.acroForm = some acro → acro.xfa = false →
      acro.fields.isEmpty = false →
      ∃ out, fill_pdf_with_pdfrw t row mapping rules forceAuto = .ok out) := by
  constructor
  · simp only [fillFieldStep, h1, h2]
    rw [if_pos h3]
  · intro t acro ht hx hne
    have hxfa : is_xfa_pdf t = false := by simp [is_xfa_pdf, ht, hx]
    simp only [fill_pdf_with_pdfrw, ht, hxfa, hne]
    simp

/-- Witness for the amended C5 at a concrete input: the field is skipped
with count zero and the overall fill succeeds. -/
theorem C5_amended_witness :
    fillFieldStep true [("A", "col")] [] ⟨[("x", "1")]⟩ attrsC5 [.mk attrsC5 []] =
      (attrsC5, [.mk attrsC5 []], 0) ∧
    (∃ out, fill_pdf_with_pdfrw ⟨some ⟨false, [.mk attrsC5 []]⟩, [], false⟩ ⟨[("x", "1")]⟩
      [("A", "col")] [] true = .ok out) := by
  have h := C5_amended_missing_column_skips true [("A", "col")] [] ⟨[("x", "1")]⟩ attrsC5
    [.mk attrsC5 []] "A" "col" rfl rfl (by decide)
  exact ⟨h.1, h.2 ⟨some ⟨false, [.mk attrsC5 []]⟩, [], false⟩ ⟨false, [.mk attrsC5 []]⟩ rfl rfl rfl⟩

/-- Claim C6: when no explicit rule is configured for a button field, the
engine uses exactly the default rule constant (checked tokens yes, true,
1, x, on, checked, male; unchecked tokens no, false, 0, off, unchecked,
the empty string, female; default polarity off); the value "Y" matches
neither set, falls to the default polarity, and V becomes "/Off". -/
theorem C6_default_rule_applies (forceAuto : Bool) (mapping : List (String × String))
    (rules : List (String × Rule)) (row : DataRow) (a : FAttrs) (kids : List PdfField)
    (nm excel_col : String)
    (h1 : clean_field_name a.T = some nm) (h2 : alookup nm mapping = some excel_col)
    (h3 : excel_col ≠ "") (h4 : row.hasCol excel_col = true) (h5 : a.FT = some "/Btn")
    (h6 : alookup nm rules = none) :
    (alookup nm rules).getD defaultRule = defaultRule ∧
    defaultRule.checked_values = ["yes", "true", "1", "x", "on", "checked", "male"] ∧
    defaultRule.unchecked_values = ["no", "false", "0", "off", "unchecked", "", "female"] ∧
    defaultRule.default = "off" ∧
    should_check "Y" defaultRule = false ∧
    (row.get excel_col = "Y" →
      (fillFieldStep forceAuto mapping rules row a kids).1.V = some "/Off") := by
  have hcond : ¬(excel_col = "" ∨ row.hasCol excel_col = false) := by simp [h3, h4]
  refine ⟨by rw [h6]; rfl, rfl, rfl, rfl, by decide, ?_⟩
  intro hy
  have htok : (if should_check (row.get excel_col) ((alookup nm rules).getD defaultRule)
      then get_checkbox_on_value (.mk a kids) else "/Off") = "/Off" := by
    rw [hy, h6]
    norm_num [show should_check "Y" defaultRule = false from by decide]
  cases kids with
  | nil =>
    simp only [fillFieldStep, h1, h2]
    rw [if_neg hcond, if_pos h5]
    simpa using htok
  | cons k0 ks =>
    simp only [fillFieldStep, h1, h2]
    rw [if_neg hcond, if_pos h5]
    simpa using htok

/-- Witness for C6 at a concrete input: the example of the spec, field
Agree mapped to column Consent holding "Y" with no configured rule. -/
theorem C6_witness :
    should_check "Y" defaultRule = false ∧
    (fillFieldStep true [("Agree", "Consent")] [] ⟨[("Consent", "Y")]⟩
      ⟨some "Agree", some "/Btn", ["/Off", "/Yes"], none, none, none, false, none⟩ []).1.V =
      some "/Off" := by
  have h := C6_default_rule_applies true [("Agree", "Consent")] [] ⟨[("Consent", "Y")]⟩
    ⟨some "Agree", some "/Btn", ["/Off", "/Yes"], none, none, none, false, none⟩ []
    "Agree" "Consent" rfl rfl (by decide) rfl rfl rfl
  exact ⟨h.2.2.2.2.1, h.2.2.2.2.2 rfl⟩

/-- Claim C10: when the AcroForm root exists and the document is not XFA
but the Fields array is absent or empty, the fill call fails with the
dedicated error before any output is produced: no ok result exists, so
the output path is never written. -/
theorem C10_empty_fields_fatal (t : PdfTemplate) (acro : AcroFormT) (row : DataRow)
    (mapping : List (String × String)) (rules : List (String × Rule)) (forceAuto : Bool)
    (h1 : t.acroForm = some acro) (h2 : acro.xfa = false) (h3 : acro.fields = []) :
    fill_pdf_with_pdfrw t row mapping rules forceAuto =
      .error "AcroForm exists, but no fields found in AcroForm.Fields" ∧
    ∀ out, fill_pdf_with_pdfrw t row mapping rules forceAuto ≠ .ok out := by
  have hxfa : is_xfa_pdf t = false := by simp [is_xfa_pdf, h1, h2]
  have hmain : fill_pdf_with_pdfrw t row mapping rules forceAuto =
      .error "AcroForm exists, but no fields found in AcroForm.Fields" := by
    simp only [fill_pdf_with_pdfrw, h1, hxfa, h3]
    simp
  exact ⟨hmain, fun out h => by rw [hmain] at h; exact Except.noConfusion h⟩

/-- Witness for C10 at a concrete input: AcroForm present, not XFA, empty
Fields array. -/
theorem C10_witness :
    fill_pdf_with_pdfrw ⟨some ⟨false, []⟩, [], false⟩ ⟨[]⟩ [] [] true =
      .error "AcroForm exists, but no fields found in AcroForm.Fields" ∧
    ∀ out, fill_pdf_with_pdfrw ⟨some ⟨false, []⟩, [], false⟩ ⟨[]⟩ [] [] true ≠ .ok out := by
  have h := C10_empty_fields_fatal ⟨some ⟨false, []⟩, [], false⟩ ⟨false, []⟩ ⟨[]⟩ [] [] true
    rfl rfl rfl
  exact h

/-- Claim C7: exporting a configuration and re-importing it against the
same template and data file (so that every mapped field is a field of the
template, every mapped column is a column of the data source, and every
rule names a template field, as the mapping UI of src/app.py guarantees)
reproduces an identical mapping and an identical rule set. -/
theorem C7_export_import_roundtrip (pdfHash excelHash pdfName excelName exportedAt : String)
    (mapping : List (String × String)) (rules : List (String × Rule))
    (dfColumns pdfFields : List String)
    (hm : ∀ p ∈ mapping, p.1 ∈ pdfFields ∧ p.2 ∈ dfColumns)
    (hr : ∀ p ∈ rules, p.1 ∈ pdfFields) :
    (normalize_imported_schema
      (export_payload pdfHash excelHash pdfName excelName mapping rules exportedAt)
      dfColumns pdfFields).1 = mapping ∧
    (normalize_imported_schema
      (export_payload pdfHash excelHash pdfName excelName mapping rules exportedAt)
      dfColumns pdfFields).2.1 = rules := by
  constructor
  · apply List.filter_eq_self.mpr
    intro p hp
    have h := hm p hp
    simp [h.1, h.2]
  · apply List.filter_eq_self.mpr
    intro p hp
    have h := hr p hp
    simp [h]

/-- Witness for C7 at a concrete input. -/
theorem C7_witness :
    (normalize_imported_schema
      (export_payload "h1" "h2" "t.pdf" "d.xlsx" [("Name", "FullName")]
        [("Agree", defaultRule)] "now")
      ["FullName"] ["Name", "Agree"]).1 = [("Name", "FullName")] ∧
    (normalize_imported_schema
      (export_payload "h1" "h2" "t.pdf" "d.xlsx" [("Name", "FullName")]
        [("Agree", defaultRule)] "now")
      ["FullName"] ["Name", "Agree"]).2.1 = [("Agree", defaultRule)] := by
  exact C7_export_import_roundtrip "h1" "h2" "t.pdf" "d.xlsx" "now" [("Name", "FullName")]
    [("Agree", defaultRule)] ["FullName"] ["Name", "Agree"]
    (by intro p hp; simp at hp; subst hp; exact ⟨by decide, by decide⟩)
    (by intro p hp; simp at hp; rw [hp]; decide)

/-- The batch loop produces one report entry per row. -/
theorem generateReports_length (t : PdfTemplate) (mapping : List (String × String))
    (rules : List (String × Rule)) :
    ∀ (rows : List DataRow) (k : Nat),
      (generateReports t mapping rules k rows).length = rows.length := by
  intro rows
  induction rows with
  | nil => intro k; rfl
  | cons dr rest ih => intro k; simp [generateReports, ih]

/-- The i-th report entry is the loop body applied to the i-th row. -/
theorem generateReports_getElem? (t : PdfTemplate) (mapping : List (String × String))
    (rules : List (String × Rule)) :
    ∀ (rows : List DataRow) (k i : Nat),
      (generateReports t mapping rules k rows)[i]? =
        (rows[i]?).map (fun dr => mkReportRow t mapping rules (k + i) dr) := by
  intro rows
  induction rows with
  | nil => intro k i; simp [generateReports]
  | cons dr rest ih =>
    intro k i
    cases i with
    | zero => simp [generateReports]
    | succ j =>
      simp only [generateReports, List.getElem?_cons_succ]
      rw [ih (k + 1) j]
      have harith : k + 1 + j = k + (j + 1) := by omega
      rw [harith]

/-- Characterisation of the loop body when the fill call succeeds. -/
theorem mkReportRow_ok (t : PdfTemplate) (mapping : List (String × String))
    (rules : List (String × Rule)) (i : Nat) (dr : DataRow) (out : PdfTemplate × Nat)
    (hf : fill_pdf_with_pdfrw t dr mapping rules true = .ok out) :
    mkReportRow t mapping rules i dr =
      ⟨i + 1, if 0 < out.2 then "OK" else "ZERO_FILLED", out.2, ""⟩ := by
  simp [mkReportRow, hf]

/-- Characterisation of the loop body when the fill call raises. -/
theorem mkReportRow_error (t : PdfTemplate) (mapping : List (String × String))
    (rules : List (String × Rule)) (i : Nat) (dr : DataRow) (e : String)
    (hf : fill_pdf_with_pdfrw t dr mapping rules true = .error e) :
    mkReportRow t mapping rules i dr = ⟨i + 1, "ERROR", 0, e⟩ := by
  simp [mkReportRow, hf]

/-- Claim C8: batch generation over N rows produces a report of exactly N
entries, one per row, and each status is consistent with its count: OK
exactly when the fill call succeeded with a positive count, ZERO_FILLED
exactly when it succeeded with count zero, ERROR exactly when it raised;
a zero count never yields OK. -/
theorem C8_batch_report (t : PdfTemplate) (mapping : List (String × String))
    (rules : List (String × Rule)) (rows : List DataRow) :
    (generate_zip_reports t mapping rules rows).length = rows.length ∧
    (∀ i dr rep, rows[i]? = some dr →
      (generate_zip_reports t mapping rules rows)[i]? = some rep →
      rep.row = i + 1 ∧
      (rep.status = "OK" ↔
        ∃ out, fill_pdf_with_pdfrw t dr mapping rules true = .ok out ∧ 0 < out.2) ∧
      (rep.status = "ZERO_FILLED" ↔
        ∃ out, fill_pdf_with_pdfrw t dr mapping rules true = .ok out ∧ out.2 = 0) ∧
      (rep.status = "ERROR" ↔ ∃ e, fill_pdf_with_pdfrw t dr mapping rules true = .error e) ∧
      (rep.filled_fields = 0 → rep.status ≠ "OK")) := by
  refine ⟨generateReports_length t mapping rules rows 0, ?_⟩
  intro i dr rep hdr hrep
  rw [generate_zip_reports, generateReports_getElem? t mapping rules rows 0 i, hdr] at hrep
  simp only [Option.map_some'] at hrep
  have hrep' : rep = mkReportRow t mapping rules (0 + i) dr := by
    injection hrep.symm
  subst hrep'
  cases hf : fill_pdf_with_pdfrw t dr mapping rules true with
  | ok out =>
    rw [mkReportRow_ok t mapping rules (0 + i) dr out hf]
    by_cases hpos : 0 < out.2
    · rw [if_pos hpos]
      refine ⟨by simp, ?_, ?_, ?_, ?_⟩
      · simp only [true_iff]
        exact ⟨out, rfl, hpos⟩
      · constructor
        · intro h; have hstr : ("OK" : String) = "ZERO_FILLED" := h; exact absurd hstr (by decide)
        · rintro ⟨out', hout', hz⟩
          obtain rfl : out = out' := by injection hout'
          omega
      · constructor
        · intro h; have hstr : ("OK" : String) = "ERROR" := h; exact absurd hstr (by decide)
        · rintro ⟨e, he⟩
          exact Except.noConfusion he
      · intro hz
        have hz' : out.2 = 0 := hz
        omega
    · rw [if_neg hpos]
      refine ⟨by simp, ?_, ?_, ?_, ?_⟩
      · constructor
        · intro h; have hstr : ("ZERO_FILLED" : String) = "OK" := h; exact absurd hstr (by decide)
        · rintro ⟨out', hout', hp⟩
          obtain rfl : out = out' := by injection hout'
          omega
      · simp only [true_iff]
        exact ⟨out, rfl, by omega⟩
      · constructor
        · intro h; have hstr : ("ZERO_FILLED" : String) = "ERROR" := h; exact absurd hstr (by decide)
        · rintro ⟨e, he⟩
          exact Except.noConfusion he
      · intro _ h
        have hstr : ("ZERO_FILLED" : String) = "OK" := h; exact absurd hstr (by decide)
  | error e =>
    rw [mkReportRow_error t mapping rules (0 + i) dr e hf]
    refine ⟨by simp, ?_, ?_, ?_, ?_⟩
    · constructor
      · intro h; have hstr : ("ERROR" : String) = "OK" := h; exact absurd hstr (by decide)
      · rintro ⟨out', hout', _⟩
        exact Except.noConfusion hout'
    · constructor
      · intro h; have hstr : ("ERROR" : String) = "ZERO_FILLED" := h; exact absurd hstr (by decide)
      · rintro ⟨out', hout', _⟩
        exact Except.noConfusion hout'
    · simp only [true_iff]
      exact ⟨e, rfl⟩
    · intro _ h
      have hstr : ("ERROR" : String) = "OK" := h; exact absurd hstr (by decide)

/-- Witness for C8 at a concrete input: a one-row batch against a
template without an AcroForm root yields one entry with status ERROR. -/
theorem C8_witness :
    (generate_zip_reports ⟨none, [], false⟩ [] [] [⟨[]⟩]).length = 1 ∧
    ∃ rep, (generate_zip_reports ⟨none, [], false⟩ [] [] [⟨[]⟩])[0]? = some rep ∧
      rep.status = "ERROR" := by
  have h := C8_batch_report ⟨none, [], false⟩ [] [] [⟨[]⟩]
  refine ⟨h.1, ⟨1, "ERROR", 0, "No AcroForm found in PDF."⟩, rfl, ?_⟩
  exact (h.2 0 ⟨[]⟩ ⟨1, "ERROR", 0, "No AcroForm found in PDF."⟩ rfl rfl).2.2.2.1.mpr
    ⟨"No AcroForm found in PDF.", rfl⟩

/-- Lookup in an appended list succeeds on the left part first. -/
theorem alookup_append_some {β : Type} {k : String} {l1 : List (String × β)} {v : β}
    (h : alookup k l1 = some v) (l2 : List (String × β)) :
    alookup k (l1 ++ l2) = some v := by
  induction l1 with
  | nil => simp [alookup] at h
  | cons p l1 ih =>
    obtain ⟨k', v'⟩ := p
    by_cases hk : k' = k
    · simp only [alookup, if_pos hk] at h
      simp only [List.cons_append, alookup, if_pos hk]
      exact h
    · simp only [alookup, if_neg hk] at h
      simp only [List.cons_append, alookup, if_neg hk]
      exact ih h

/-- Lookup in an appended list falls through when the left part fails. -/
theorem alookup_append_none {β : Type} {k : String} {l1 : List (String × β)}
    (h : alookup k l1 = none) (l2 : List (String × β)) :
    alookup k (l1 ++ l2) = alookup k l2 := by
  induction l1 with
  | nil => simp
  | cons p l1 ih =>
    obtain ⟨k', v'⟩ := p
    by_cases hk : k' = k
    · simp only [alookup, if_pos hk] at h
      exact Option.noConfusion h
    · simp only [alookup, if_neg hk] at h
      simp only [List.cons_append, alookup, if_neg hk]
      exact ih h

/-- Updating a present key changes its looked-up value. -/
theorem alookup_update_self {β : Type} {k : String} {l : List (String × β)} {cur : β}
    (h : alookup k l = some cur) (v : β) :
    alookup k (assocUpdate k v l) = some v := by
  induction l with
  | nil => simp [alookup] at h
  | cons p l ih =>
    obtain ⟨k0, v0⟩ := p
    by_cases hk : k0 = k
    · simp [assocUpdate, alookup, hk]
    · simp only [alookup, if_neg hk] at h
      simp only [assocUpdate, if_neg hk, alookup, if_neg hk]
      exact ih h

/-- Updating one key leaves every other key unchanged. -/
theorem alookup_update_ne {β : Type} {k' k : String} (h : k' ≠ k) (v : β)
    (l : List (String × β)) :
    alookup k' (assocUpdate k v l) = alookup k' l := by
  induction l with
  | nil => rfl
  | cons p l ih =>
    obtain ⟨k0, v0⟩ := p
    by_cases hk : k0 = k
    · subst hk
      have hne : k0 ≠ k' := fun hc => h (hc.symm)
      simp [assocUpdate, alookup, hne]
    · by_cases hk' : k0 = k'
      · subst hk'
        simp [assocUpdate, alookup, hk, h]
      · simp only [assocUpdate, if_neg hk, alookup, if_neg hk']
        exact ih

/-- Updating preserves presence of every key. -/
theorem alookup_update_isSome {β : Type} (n k : String) (v : β) (l : List (String × β)) :
    (alookup n (assocUpdate k v l)).isSome = (alookup n l).isSome := by
  induction l with
  | nil => rfl
  | cons p l ih =>
    obtain ⟨k0, v0⟩ := p
    by_cases hk : k0 = k
    · subst hk
      by_cases hn : k0 = n
      · simp [assocUpdate, alookup, hn]
      · simp only [assocUpdate, if_pos rfl, alookup, if_neg hn]
    · by_cases hn : k0 = n
      · subst hn
        simp [assocUpdate, alookup, hk]
      · simp only [assocUpdate, if_neg hk, alookup, if_neg hn]
        exact ih

/-- One merge iteration maps a name to checkbox_or_radio exactly when the
state already did, or the processed pair is that name with a
checkbox_or_radio type. -/
theorem mergeStep_cb (st : List String × List (String × String)) (p : String × String)
    (nm : String) :
    alookup nm (mergeStep st p).2 = some "checkbox_or_radio" ↔
      (alookup nm st.2 = some "checkbox_or_radio" ∨ p = (nm, "checkbox_or_radio")) := by
  obtain ⟨pn, pt⟩ := p
  cases h : alookup pn st.2 with
  | none =>
    simp only [mergeStep, h]
    cases hl : alookup nm st.2 with
    | some v =>
      rw [alookup_append_some hl]
      constructor
      · intro hv; exact Or.inl hv
      · rintro (hv | hp)
        · exact hv
        · injection hp with h1 h2
          subst h1
          rw [hl] at h
          exact Option.noConfusion h
    | none =>
      rw [alookup_append_none hl]
      by_cases hn : pn = nm
      · subst hn
        simp [alookup]
      · simp only [alookup, if_neg hn]
        constructor
        · intro hv; exact Option.noConfusion hv
        · rintro (hv | hp)
          · exact Option.noConfusion hv
          · injection hp with h1 h2
            exact absurd h1 hn
  | some cur =>
    by_cases hc : cur ≠ "checkbox_or_radio" ∧ pt = "checkbox_or_radio"
    · simp only [mergeStep, h, if_pos hc]
      by_cases hn : pn = nm
      · subst hn
        rw [alookup_update_self h pt]
        constructor
        · intro _; exact Or.inr (by rw [hc.2])
        · intro _; rw [hc.2]
      · rw [alookup_update_ne (fun hx => hn hx.symm) pt st.2]
        constructor
        · intro hv; exact Or.inl hv
        · rintro (hv | hp)
          · exact hv
          · injection hp with h1 h2
            exact absurd h1 hn
    · simp only [mergeStep, h, if_neg hc]
      constructor
      · intro hv; exact Or.inl hv
      · rintro (hv | hp)
        · exact hv
        · injection hp with h1 h2
          subst h1
          have hcur : cur = "checkbox_or_radio" := by
            by_contra hne
            exact hc ⟨hne, h2⟩
          rw [h, hcur]

/-- The merge loop maps a name to checkbox_or_radio exactly when the
initial state did or some processed occurrence is that name with type
checkbox_or_radio. -/
theorem mergeFoldl_cb (occ : List (String × String)) :
    ∀ (st : List String × List (String × String)) (nm : String),
      alookup nm (occ.foldl mergeStep st).2 = some "checkbox_or_radio" ↔
        (alookup nm st.2 = some "checkbox_or_radio" ∨ (nm, "checkbox_or_radio") ∈ occ) := by
  induction occ with
  | nil => intro st nm; simp
  | cons p rest ih =>
    intro st nm
    rw [List.foldl_cons, ih (mergeStep st p) nm, mergeStep_cb st p nm]
    constructor
    · rintro ((hv | hp) | hm)
      · exact Or.inl hv
      · exact Or.inr (by rw [← hp]; exact List.mem_cons_self p rest)
      · exact Or.inr (List.mem_cons_of_mem p hm)
    · rintro (hv | hm)
      · exact Or.inl (Or.inl hv)
      · rcases List.mem_cons.mp hm with he | hm'
        · exact Or.inl (Or.inr he.symm)
        · exact Or.inr hm'

/-- The merge loop builds the ordered name list by keeping the first
occurrence of each name, provided the state is consistent (a name is
present in the map exactly when it is listed in the order). -/
theorem mergeFoldl_order (occ : List (String × String)) :
    ∀ (order : List String) (merged : List (String × String)),
      (∀ n, (alookup n merged).isSome = true ↔ n ∈ order) →
      (occ.foldl mergeStep (order, merged)).1 =
        occ.foldl (fun o p => if p.1 ∈ o then o else o ++ [p.1]) order := by
  induction occ with
  | nil => intro order merged _; rfl
  | cons p rest ih =>
    intro order merged hinv
    rw [List.foldl_cons, List.foldl_cons]
    obtain ⟨pn, pt⟩ := p
    cases h : alookup pn merged with
    | none =>
      have hp : pn ∉ order := by
        intro hmem
        have hs := (hinv pn).mpr hmem
        rw [h] at hs
        exact Bool.noConfusion hs
      have hstep : mergeStep (order, merged) (pn, pt) = (order ++ [pn], merged ++ [(pn, pt)]) := by
        simp [mergeStep, h]
      have hR : (if (pn, pt).1 ∈ order then order else order ++ [(pn, pt).1]) = order ++ [pn] := by
        simp [hp]
      rw [hstep, hR]
      apply ih
      intro n
      cases hn : alookup n merged with
      | none =>
        rw [alookup_append_none hn]
        have hno : n ∉ order := by
          intro hmem
          have hs := (hinv n).mpr hmem
          rw [hn] at hs
          exact Bool.noConfusion hs
        by_cases hpn : pn = n
        · subst hpn
          simp [alookup]
        · have hnp : ¬n = pn := fun hc => hpn hc.symm
          simp [alookup, hpn, hno, hnp]
      | some v =>
        rw [alookup_append_some hn]
        have hyes : n ∈ order := (hinv n).mp (by rw [hn]; rfl)
        simp [List.mem_append, hyes]
    | some cur =>
      have hp : pn ∈ order := (hinv pn).mp (by rw [h]; rfl)
      have hR : (if (pn, pt).1 ∈ order then order else order ++ [(pn, pt).1]) = order := by
        simp [hp]
      rw [hR]
      by_cases hcond : cur ≠ "checkbox_or_radio" ∧ pt = "checkbox_or_radio"
      · have hstep : mergeStep (order, merged) (pn, pt) = (order, assocUpdate pn pt merged) := by
          simp only [mergeStep, h, if_pos hcond]
        rw [hstep]
        apply ih
        intro n
        rw [alookup_update_isSome n pn pt merged]
        exact hinv n
      · have hstep : mergeStep (order, merged) (pn, pt) = (order, merged) := by
          simp only [mergeStep, h, if_neg hcond]
        rw [hstep]
        exact ih order merged hinv

/-- A harvested pair carries type checkbox_or_radio exactly when the node
it came from is button typed. -/
theorem occ_pair_cb (ft : Option String) (nm' nm : String) :
    ((nm', if ft = some "/Btn" then "checkbox_or_radio" else "text") =
      ((nm, "checkbox_or_radio") : String × String)) ↔ (nm' = nm ∧ ft = some "/Btn") := by
  by_cases hb : ft = some "/Btn"
  · rw [if_pos hb]
    constructor
    · intro h; injection h with h1 _; exact ⟨h1, hb⟩
    · rintro ⟨h1, _⟩; rw [h1]
  · rw [if_neg hb]
    constructor
    · intro h; injection h with _ h2; exact absurd h2 (by decide)
    · rintro ⟨_, h2⟩; exact absurd h2 hb

/-- Membership of a checkbox_or_radio occurrence in the harvested list is
exactly the existence of a button-typed source node with that name. -/
theorem harvest_mem_cb (tfields : List PdfField) (pages : List (List Annot)) (nm : String) :
    ((nm, "checkbox_or_radio") ∈ harvestOccurrences tfields pages) ↔
      (∃ f ∈ iterList tfields, clean_field_name f.attrs.T = some nm ∧
        f.attrs.FT = some "/Btn") ∨
      (∃ an ∈ flatJoin pages, an.subtype = some "/Widget" ∧ clean_field_name an.T = some nm ∧
        an.FT = some "/Btn") := by
  rw [harvestOccurrences, List.mem_append]
  apply or_congr
  · constructor
    · intro hmem
      obtain ⟨f, hf, hg⟩ := List.mem_filterMap.mp hmem
      obtain ⟨nm', hnm', hpair⟩ := Option.map_eq_some'.mp hg
      obtain ⟨h1, h2⟩ := (occ_pair_cb f.attrs.FT nm' nm).mp hpair
      subst h1
      exact ⟨f, hf, hnm', h2⟩
    · rintro ⟨f, hf, hclean, hbtn⟩
      apply List.mem_filterMap.mpr
      refine ⟨f, hf, ?_⟩
      rw [hclean, Option.map_some']
      exact congrArg some ((occ_pair_cb f.attrs.FT nm nm).mpr ⟨rfl, hbtn⟩)
  · constructor
    · intro hmem
      obtain ⟨an, han, hg⟩ := List.mem_filterMap.mp hmem
      by_cases hsub : an.subtype = some "/Widget"
      · rw [if_pos hsub] at hg
        obtain ⟨nm', hnm', hpair⟩ := Option.map_eq_some'.mp hg
        obtain ⟨h1, h2⟩ := (occ_pair_cb an.FT nm' nm).mp hpair
        subst h1
        exact ⟨an, han, hsub, hnm', h2⟩
      · rw [if_neg hsub] at hg
        exact Option.noConfusion hg
    · rintro ⟨an, han, hsub, hclean, hbtn⟩
      apply List.mem_filterMap.mpr
      refine ⟨an, han, ?_⟩
      rw [if_pos hsub, hclean, Option.map_some']
      exact congrArg some ((occ_pair_cb an.FT nm nm).mpr ⟨rfl, hbtn⟩)

/-- Claim C3: for every template, the catalog maps a name to
checkbox_or_radio exactly when at least one harvested occurrence of the
name (AcroForm tree node or page widget annotation) is button typed,
regardless of visitation order, and the ordered name list keeps the first
occurrence of every name. -/
theorem C3_merge_button_dominance (tfields : List PdfField) (pages : List (List Annot))
    (nm : String) :
    (alookup nm (mergeFields (harvestOccurrences tfields pages)).2 = some "checkbox_or_radio" ↔
      (∃ f ∈ iterList tfields, clean_field_name f.attrs.T = some nm ∧
        f.attrs.FT = some "/Btn") ∨
      (∃ an ∈ flatJoin pages, an.subtype = some "/Widget" ∧ clean_field_name an.T = some nm ∧
        an.FT = some "/Btn")) ∧
    (mergeFields (harvestOccurrences tfields pages)).1 =
      orderSpec ((harvestOccurrences tfields pages).map Prod.fst) := by
  constructor
  · rw [mergeFields, mergeFoldl_cb (harvestOccurrences tfields pages) ([], []) nm]
    rw [← harvest_mem_cb tfields pages nm]
    constructor
    · rintro (hv | hm)
      · exact Option.noConfusion hv
      · exact hm
    · intro hm; exact Or.inr hm
  · rw [mergeFields,
      mergeFoldl_order (harvestOccurrences tfields pages) [] [] (by intro n; simp [alookup]),
      orderSpec, List.foldl_map]

/-- Every element of a takeWhile prefix satisfies the predicate. -/
theorem mem_takeWhile_py (p : Char → Bool) :
    ∀ (l : List Char), ∀ c ∈ l.takeWhile p, p c = true := by
  intro l
  induction l with
  | nil => simp
  | cons a l ih =>
    by_cases ha : p a = true
    · rw [List.takeWhile_cons_of_pos ha]
      intro c hc
      rcases List.mem_cons.mp hc with rfl | hc
      · exact ha
      · exact ih c hc
    · rw [List.takeWhile_cons_of_neg ha]
      simp

/-- takeWhile and dropWhile split exactly at the first failing element. -/
theorem takeWhile_append_of (p : Char → Bool) (xs ys : List Char)
    (h1 : ∀ c ∈ xs, p c = true) (h2 : ∀ c ∈ ys.take 1, p c = false) :
    (xs ++ ys).takeWhile p = xs ∧ (xs ++ ys).dropWhile p = ys := by
  induction xs with
  | nil =>
    simp only [List.nil_append]
    cases ys with
    | nil => simp
    | cons y ys' =>
      have hy : p y = false := h2 y (by simp)
      constructor
      · exact List.takeWhile_cons_of_neg (by simp [hy])
      · exact List.dropWhile_cons_of_neg (by simp [hy])
  | cons x xs' ih =>
    have hx : p x = true := h1 x (by simp)
    obtain ⟨ihA, ihB⟩ := ih (fun c hc => h1 c (by simp [hc]))
    rw [List.cons_append]
    constructor
    · rw [List.takeWhile_cons_of_pos hx, ihA]
    · rw [List.dropWhile_cons_of_pos hx, ihB]

/-- A whitespace character is not a digit. -/
theorem ws_not_digit {c : Char} (h : isPyWs c = true) : isPyDigit c = false := by
  simp only [isPyWs, Bool.or_eq_true, beq_iff_eq] at h
  rcases h with ((((h | h) | h) | h) | h) | h <;> subst h <;> decide

/-- A whitespace character is not a dot. -/
theorem ws_not_dot {c : Char} (h : isPyWs c = true) : c ≠ '.' := by
  simp only [isPyWs, Bool.or_eq_true, beq_iff_eq] at h
  rcases h with ((((h | h) | h) | h) | h) | h <;> subst h <;> decide

/-- A digit is not the minus sign. -/
theorem digit_ne_dash {c : Char} (h : isPyDigit c = true) : c ≠ '-' := by
  intro hc
  rw [hc] at h
  exact absurd h (by decide)

/-- matchFrac consumes nothing when the input does not start with a dot. -/
theorem matchFrac_none_head (r : List Char) (h : ∀ c ∈ r.take 1, c ≠ '.') :
    matchFrac r = (0, r) := by
  cases r with
  | nil => rfl
  | cons c r' =>
    have hc : c ≠ '.' := h c (by simp)
    simp [matchFrac, hc]

/-- matchFrac consumes a dot followed by a maximal nonempty digit run. -/
theorem matchFrac_dot (fd r2 : List Char) (h1 : fd ≠ []) (h2 : ∀ c ∈ fd, isPyDigit c = true)
    (h3 : ∀ c ∈ r2.take 1, isPyDigit c = false) :
    matchFrac ('.' :: (fd ++ r2)) = (1 + fd.length, r2) := by
  obtain ⟨htw, hdw⟩ := takeWhile_append_of isPyDigit fd r2 h2 h3
  simp [matchFrac, htw, hdw, h1]

/-- Soundness of matchFrac: either nothing was consumed, or the input
decomposes as a dot, a nonempty digit run, and the rest. -/
theorem matchFrac_sound (r : List Char) (fl : Nat) (r2 : List Char)
    (h : matchFrac r = (fl, r2)) :
    (fl = 0 ∧ r2 = r) ∨
    (∃ fd, fd ≠ [] ∧ (∀ c ∈ fd, isPyDigit c = true) ∧ r = '.' :: (fd ++ r2) ∧
      fl = 1 + fd.length) := by
  cases r with
  | nil =>
    left
    rw [matchFrac] at h
    injection h with h1 h2
    exact ⟨h1.symm, h2.symm⟩
  | cons c r' =>
    by_cases hc : c = '.'
    · subst hc
      by_cases he : r'.takeWhile isPyDigit = []
      · simp only [matchFrac, if_pos rfl, he, if_pos] at h
        left
        injection h with h1 h2
        exact ⟨h1.symm, h2.symm⟩
      · simp only [matchFrac, if_pos rfl, if_neg he] at h
        right
        injection h with h1 h2
        refine ⟨r'.takeWhile isPyDigit, he, mem_takeWhile_py isPyDigit r', ?_, h1.symm⟩
        rw [← h2]
        exact congrArg ('.' :: ·) (List.takeWhile_append_dropWhile isPyDigit r').symm
    · simp only [matchFrac, if_neg hc] at h
      left
      injection h with h1 h2
      exact ⟨h1.symm, h2.symm⟩

/-- Soundness of matchNum: the consumed prefix is a number literal of the
regex and the reported length is its length. -/
theorem matchNum_sound (r : List Char) (nl : Nat) (r2 : List Char)
    (h : matchNum r = some (nl, r2)) :
    ∃ num, r = num ++ r2 ∧ IsNumLit num ∧ nl = num.length := by
  cases r with
  | nil => simp [matchNum] at h
  | cons c r0 =>
    by_cases hdash : c = '-'
    · subst hdash
      simp only [matchNum, if_pos rfl] at h
      by_cases he : r0.takeWhile isPyDigit = []
      · rw [if_pos he] at h; exact Option.noConfusion h
      · rw [if_neg he] at h
        obtain ⟨fl, rr, hmf⟩ : ∃ fl rr, matchFrac (r0.dropWhile isPyDigit) = (fl, rr) :=
          ⟨_, _, rfl⟩
        rw [hmf] at h
        injection h with hpair
        injection hpair with h1 h2
        subst h2
        rcases matchFrac_sound _ _ _ hmf with ⟨hfl0, hreq⟩ | ⟨fd, hfdne, hfdd, hfeq, hflv⟩
        · refine ⟨'-' :: r0.takeWhile isPyDigit, ?_, ?_, ?_⟩
          · rw [List.cons_append, hreq]
            exact congrArg ('-' :: ·) (List.takeWhile_append_dropWhile isPyDigit r0).symm
          · exact ⟨['-'], r0.takeWhile isPyDigit, [], by simp, Or.inr rfl, he,
              mem_takeWhile_py isPyDigit r0, Or.inl rfl⟩
          · simp only [List.length_cons]
            omega
        · refine ⟨'-' :: (r0.takeWhile isPyDigit ++ '.' :: fd), ?_, ?_, ?_⟩
          · have hr0 : r0 = r0.takeWhile isPyDigit ++ ('.' :: (fd ++ rr)) := by
              rw [← hfeq]
              exact (List.takeWhile_append_dropWhile isPyDigit r0).symm
            rw [List.cons_append]
            have hassoc : (r0.takeWhile isPyDigit ++ '.' :: fd) ++ rr =
                r0.takeWhile isPyDigit ++ ('.' :: (fd ++ rr)) := by
              simp [List.append_assoc]
            rw [hassoc]
            exact congrArg ('-' :: ·) hr0
          · exact ⟨['-'], r0.takeWhile isPyDigit, '.' :: fd, by simp, Or.inr rfl, he,
              mem_takeWhile_py isPyDigit r0, Or.inr ⟨fd, rfl, hfdne, hfdd⟩⟩
          · simp only [List.length_cons, List.length_append]
            omega
    · simp only [matchNum, if_neg hdash] at h
      by_cases he : (c :: r0).takeWhile isPyDigit = []
      · rw [if_pos he] at h; exact Option.noConfusion h
      · rw [if_neg he] at h
        obtain ⟨fl, rr, hmf⟩ : ∃ fl rr, matchFrac ((c :: r0).dropWhile isPyDigit) = (fl, rr) :=
          ⟨_, _, rfl⟩
        rw [hmf] at h
        injection h with hpair
        injection hpair with h1 h2
        subst h2
        rcases matchFrac_sound _ _ _ hmf with ⟨hfl0, hreq⟩ | ⟨fd, hfdne, hfdd, hfeq, hflv⟩
        · refine ⟨(c :: r0).takeWhile isPyDigit, ?_, ?_, ?_⟩
          · rw [hreq]
            exact (List.takeWhile_append_dropWhile isPyDigit (c :: r0)).symm
          · exact ⟨[], (c :: r0).takeWhile isPyDigit, [], by simp, Or.inl rfl, he,
              mem_takeWhile_py isPyDigit (c :: r0), Or.inl rfl⟩
          · omega
        · refine ⟨(c :: r0).takeWhile isPyDigit ++ '.' :: fd, ?_, ?_, ?_⟩
          · have hcr : (c :: r0) = (c :: r0).takeWhile isPyDigit ++ ('.' :: (fd ++ rr)) := by
              rw [← hfeq]
              exact (List.takeWhile_append_dropWhile isPyDigit (c :: r0)).symm
            have hassoc : ((c :: r0).takeWhile isPyDigit ++ '.' :: fd) ++ rr =
                (c :: r0).takeWhile isPyDigit ++ ('.' :: (fd ++ rr)) := by
              simp [List.append_assoc]
            rw [hassoc]
            exact hcr
          · exact ⟨[], (c :: r0).takeWhile isPyDigit, '.' :: fd, by simp, Or.inl rfl, he,
              mem_takeWhile_py isPyDigit (c :: r0), Or.inr ⟨fd, rfl, hfdne, hfdd⟩⟩
          · simp only [List.length_append, List.length_cons]
            omega

/-- Completeness of matchNum: a number literal followed by a rest that
starts with neither a digit nor a dot is matched exactly. -/
theorem matchNum_complete (num rest : List Char) (h : IsNumLit num)
    (hr1 : ∀ c ∈ rest.take 1, isPyDigit c = false)
    (hr2 : ∀ c ∈ rest.take 1, c ≠ '.') :
    matchNum (num ++ rest) = some (num.length, rest) := by
  obtain ⟨sign, ds, fr, hnum, hsign, hdsne, hdsd, hfr⟩ := h
  have hfr_head_nd : ∀ c ∈ (fr ++ rest).take 1, isPyDigit c = false := by
    rcases hfr with rfl | ⟨fd, rfl, hfdne, hfdd⟩
    · simpa using hr1
    · intro c hc
      simp at hc
      subst hc
      decide
  obtain ⟨htw, hdw⟩ := takeWhile_append_of isPyDigit ds (fr ++ rest) hdsd hfr_head_nd
  have hfrac : matchFrac (fr ++ rest) = (fr.length, rest) := by
    rcases hfr with rfl | ⟨fd, rfl, hfdne, hfdd⟩
    · simpa using matchFrac_none_head rest hr2
    · rw [List.cons_append, matchFrac_dot fd rest hfdne hfdd hr1]
      simp [Nat.add_comm]
  rcases hsign with rfl | rfl
  · obtain ⟨d, ds', rfl⟩ : ∃ d ds', ds = d :: ds' := by
      cases ds with
      | nil => exact absurd rfl hdsne
      | cons d ds' => exact ⟨d, ds', rfl⟩
    have hd : isPyDigit d = true := hdsd d (by simp)
    have hdash : ¬d = '-' := digit_ne_dash hd
    have heq : num ++ rest = d :: (ds' ++ (fr ++ rest)) := by
      rw [hnum]; simp [List.append_assoc]
    have hts : d :: (ds' ++ (fr ++ rest)) = (d :: ds') ++ (fr ++ rest) := by simp
    rw [heq]
    simp only [matchNum, if_neg hdash]
    rw [hts, htw, hdw, hfrac]
    rw [if_neg (by simp : ¬(d :: ds') = [])]
    have hlen : (d :: ds').length + fr.length = num.length := by
      rw [hnum]
      simp
      omega
    rw [hlen]
  · have heq : num ++ rest = '-' :: (ds ++ (fr ++ rest)) := by
      rw [hnum]; simp [List.append_assoc]
    rw [heq]
    simp only [matchNum, if_pos rfl]
    rw [htw, hdw, hfrac]
    rw [if_neg hdsne]
    have hlen : 1 + ds.length + fr.length = num.length := by
      rw [hnum]
      simp
      omega
    rw [hlen]
    simp

/-- A satisfied word boundary means the first following character, if
any, is not a word character. -/
theorem boundaryOk_take (post : List Char) (h : boundaryOk post = true) :
    ∀ c ∈ post.take 1, isPyWord c = false := by
  cases post with
  | nil => simp
  | cons c tl =>
    intro c' hc'
    simp at hc'
    subst hc'
    simpa [boundaryOk] using h

/-- Converse of boundaryOk_take. -/
theorem boundaryOk_of (post : List Char) (h : ∀ c ∈ post.take 1, isPyWord c = false) :
    boundaryOk post = true := by
  cases post with
  | nil => rfl
  | cons c tl =>
    simp [boundaryOk, h c (by simp)]

/-- The one-element take of a nonempty list extended on the right stays
inside the list. -/
theorem take_one_append_mem {α : Type} (ws xs : List α) (hne : ws ≠ []) :
    ∀ c ∈ (ws ++ xs).take 1, c ∈ ws := by
  cases ws with
  | nil => exact absurd rfl hne
  | cons a b =>
    intro c hc
    simp at hc
    subst hc
    simp

/-- Soundness of the pattern matcher: a successful attempt at the head of
a suffix yields a declarative font-size-then-Tf decomposition of the same
length. -/
theorem matchTfAt_sound (t : List Char) (L : Nat) (h : matchTfAt t = some L) :
    DeclTfSuffix t L := by
  cases t with
  | nil => simp [matchTfAt] at h
  | cons w rest =>
    simp only [matchTfAt] at h
    by_cases hw : isPyWs w = true
    · rw [if_pos hw] at h
      split at h
      · exact Option.noConfusion h
      · rename_i nl r2 hmn
        split at h
        · exact Option.noConfusion h
        · rename_i hwse
          split at h
          · rename_i c1 c2 post hdw
            split at h
            · rename_i hTf
              injection h with hL
              obtain ⟨num, hreq, hnumlit, hnl⟩ := matchNum_sound rest nl r2 hmn
              set tw := List.takeWhile isPyWs r2 with htwdef
              have hr2 : r2 = tw ++ ('T' :: 'f' :: post) := by
                rw [htwdef]
                conv_lhs => rw [← List.takeWhile_append_dropWhile isPyWs r2]
                rw [hdw, hTf.1, hTf.2.1]
              refine ⟨w, num, tw, post, ?_, hw, hnumlit, hwse, ?_,
                boundaryOk_take post hTf.2.2, ?_⟩
              · rw [hreq, hr2]
                simp [List.append_assoc]
              · rw [htwdef]
                exact mem_takeWhile_py isPyWs r2
              · rw [← hL, hnl]
                omega
            · exact Option.noConfusion h
          · exact Option.noConfusion h
    · rw [if_neg hw] at h
      exact Option.noConfusion h

/-- Completeness of the pattern matcher: every declarative decomposition
is found, with the same length. -/
theorem matchTfAt_complete (t : List Char) (L : Nat) (h : DeclTfSuffix t L) :
    matchTfAt t = some L := by
  obtain ⟨w, num, ws, post, heq, hw, hnum, hwsne, hwsall, hbound, hL⟩ := h
  subst heq
  have hmn : matchNum (num ++ ws ++ 'T' :: 'f' :: post) =
      some (num.length, ws ++ 'T' :: 'f' :: post) := by
    rw [List.append_assoc]
    apply matchNum_complete num (ws ++ 'T' :: 'f' :: post) hnum
    · intro c hc
      exact ws_not_digit (hwsall c (take_one_append_mem ws _ hwsne c hc))
    · intro c hc
      exact ws_not_dot (hwsall c (take_one_append_mem ws _ hwsne c hc))
  obtain ⟨htw, hdw⟩ := takeWhile_append_of isPyWs ws ('T' :: 'f' :: post) hwsall
    (by intro c hc; simp at hc; subst hc; decide)
  have hb := boundaryOk_of post hbound
  simp only [matchTfAt, hw, if_true, hmn, htw, hdw]
  rw [if_neg hwsne]
  simp [hb, hL]
  omega

/-- A successful leftmost search matches at its index and at no earlier
index. -/
theorem findTf_some (s : List Char) :
    ∀ i L, findTf s = some (i, L) →
      matchTfAt (s.drop i) = some L ∧ ∀ j, j < i → matchTfAt (s.drop j) = none := by
  induction s with
  | nil => intro i L h; simp [findTf] at h
  | cons c rest ih =>
    intro i L h
    simp only [findTf] at h
    cases hm : matchTfAt (c :: rest) with
    | some L0 =>
      rw [hm] at h
      injection h with hpair
      injection hpair with h1 h2
      subst h2
      subst h1
      refine ⟨by simpa using hm, ?_⟩
      intro j hj
      exact absurd hj (Nat.not_lt_zero j)
    | none =>
      rw [hm] at h
      cases hf : findTf rest with
      | none => rw [hf] at h; exact Option.noConfusion h
      | some p =>
        obtain ⟨i', L'⟩ := p
        rw [hf] at h
        injection h with hpair
        injection hpair with h1 h2
        subst h2
        subst h1
        obtain ⟨hA, hB⟩ := ih i' L' hf
        constructor
        · simpa using hA
        · intro j hj
          cases j with
          | zero => simpa using hm
          | succ j' =>
            have hj' : j' < i' := by omega
            simpa using hB j' hj'

/-- A failed leftmost search means no suffix matches. -/
theorem findTf_none (s : List Char) (h : findTf s = none) :
    ∀ i, matchTfAt (s.drop i) = none := by
  induction s with
  | nil => intro i; simp [matchTfAt]
  | cons c rest ih =>
    intro i
    simp only [findTf] at h
    cases hm : matchTfAt (c :: rest) with
    | some L0 => rw [hm] at h; exact Option.noConfusion h
    | none =>
      rw [hm] at h
      cases hf : findTf rest with
      | some p =>
        obtain ⟨i', L'⟩ := p
        rw [hf] at h
        exact Option.noConfusion h
      | none =>
        cases i with
        | zero => simpa using hm
        | succ i' => simpa using ih hf i'

/-- Claim C9: the default-appearance rewrite of _set_da_autosize replaces
only the leftmost font-size-then-Tf token pair of the DA string, splicing
in the captured whitespace followed by 0 Tf and leaving the prefix before
the match and the suffix after it unchanged; when no such token pair
exists anywhere the DA string is left entirely untouched; and for a text
field the value is always written regardless of the DA content, so the
rewrite never prevents the value from being set.  A token pair here is
the regex pattern of the source: a whitespace character, a number, more
whitespace, the token Tf, and a word boundary. -/
theorem C9_da_rewrite_first_match_only :
    (∀ d : String, (∀ i L, ¬ DeclTfSuffix (d.data.drop i) L) →
      set_da_autosize (some d) = some d) ∧
    (∀ (d : String) (i L : Nat), DeclTfSuffix (d.data.drop i) L →
      (∀ j, j < i → ∀ L', ¬ DeclTfSuffix (d.data.drop j) L') →
      set_da_autosize (some d) =
        some (String.mk (d.data.take (i + 1) ++ ['0', ' ', 'T', 'f'] ++ d.data.drop (i + L)))) ∧
    (∀ (mapping : List (String × String)) (rules : List (String × Rule)) (row : DataRow)
      (a : FAttrs) (kids : List PdfField) (nm excel_col : String),
      clean_field_name a.T = some nm → alookup nm mapping = some excel_col →
      excel_col ≠ "" → row.hasCol excel_col = true → ¬a.FT = some "/Btn" →
      (fillFieldStep true mapping rules row a kids).1.V = some (row.get excel_col)) := by
  refine ⟨?_, ?_, ?_⟩
  · intro d hno
    have hfind : findTf d.data = none := by
      cases hf : findTf d.data with
      | none => rfl
      | some p =>
        obtain ⟨i, L⟩ := p
        have hmatch := (findTf_some d.data i L hf).1
        exact absurd (matchTfAt_sound _ _ hmatch) (hno i L)
    by_cases hd : d = ""
    · rw [hd]; rfl
    · simp only [set_da_autosize, if_neg hd]
      rw [show reSubTfOnce d.data = d.data by simp [reSubTfOnce, hfind]]
  · intro d i L hdecl hbelow
    have hmatch : matchTfAt (d.data.drop i) = some L := matchTfAt_complete _ _ hdecl
    have hfind : findTf d.data = some (i, L) := by
      cases hf : findTf d.data with
      | none =>
        have := findTf_none d.data hf i
        rw [hmatch] at this
        exact Option.noConfusion this
      | some p =>
        obtain ⟨i0, L0⟩ := p
        obtain ⟨hA, hB⟩ := findTf_some d.data i0 L0 hf
        rcases Nat.lt_trichotomy i0 i with hlt | heq | hgt
        · exact absurd (matchTfAt_sound _ _ hA) (hbelow i0 hlt L0)
        · subst heq
          rw [hmatch] at hA
          injection hA with hLL
          rw [hLL]
        · have := hB i hgt
          rw [hmatch] at this
          exact Option.noConfusion this
    have hd : ¬d = "" := by
      intro hdd
      obtain ⟨w, num, ws, post, heq, _⟩ := hdecl
      rw [hdd] at heq
      simp at heq
    simp only [set_da_autosize, if_neg hd]
    rw [show reSubTfOnce d.data =
        d.data.take (i + 1) ++ ['0', ' ', 'T', 'f'] ++ d.data.drop (i + L) by
      simp [reSubTfOnce, hfind]]
  · intro mapping rules row a kids nm excel_col h1 h2 h3 h4 h5
    have hcond : ¬(excel_col = "" ∨ row.hasCol excel_col = false) := by simp [h3, h4]
    simp only [fillFieldStep, h1, h2]
    rw [if_neg hcond, if_neg h5]

/-- Witness for C9 at concrete inputs: a DA string with no token pair is
untouched, the first token pair of "a 1 Tf" is rewritten to "a 0 Tf", and
a concrete text field gets its value set. -/
theorem C9_witness :
    set_da_autosize (some "xyz") = some "xyz" ∧
    set_da_autosize (some "a 1 Tf") = some "a 0 Tf" ∧
    (fillFieldStep true [("Name", "FullName")] [] ⟨[("FullName", "Ada Lovelace")]⟩
      ⟨some "Name", none, [], none, none, some "xyz", false, none⟩ []).1.V =
      some "Ada Lovelace" := by
  refine ⟨?_, ?_, ?_⟩
  · apply C9_da_rewrite_first_match_only.1 "xyz"
    intro i L hd
    have hm := matchTfAt_complete _ _ hd
    rw [findTf_none ("xyz".data) (by decide) i] at hm
    exact Option.noConfusion hm
  · have hdecl : DeclTfSuffix ((String.data "a 1 Tf").drop 1) 5 := by
      refine ⟨' ', ['1'], [' '], [], by decide, by decide,
        ⟨[], ['1'], [], rfl, Or.inl rfl, by decide, by decide, Or.inl rfl⟩,
        by decide, by decide, by decide, by decide⟩
    have hbelow : ∀ j, j < 1 → ∀ L', ¬DeclTfSuffix ((String.data "a 1 Tf").drop j) L' := by
      intro j hj L' hd
      interval_cases j
      have hm := matchTfAt_complete _ _ hd
      have hnone : matchTfAt ((String.data "a 1 Tf").drop 0) = none := by decide
      rw [hnone] at hm
      exact Option.noConfusion hm
    have h := C9_da_rewrite_first_match_only.2.1 "a 1 Tf" 1 5 hdecl hbelow
    rw [h]
    rfl
  · exact C9_da_rewrite_first_match_only.2.2 [("Name", "FullName")] []
      ⟨[("FullName", "Ada Lovelace")]⟩ ⟨some "Name", none, [], none, none, some "xyz", false, none⟩
      [] "Name" "FullName" rfl rfl (by decide) rfl (by decide)
